import Mathlib

/-!
Verification of the utility core of a Go proto-danksharding crypto library.

The embedded code is `utils/utils.go` (`ComputePowers`, `IsPowerOfTwo`,
`Pow2`) together with the operations exercised by its test file
(`ReduceCanonical`, `BatchFromJacobian`, `BitReverseRoots`).  The
functions that are not part of the provided source are modelled from the
specification and are marked as such in their doc comments.

Conventions of the embedding:
* field elements of the scalar field `fr` of BLS12-381 are `ZMod frOrder`;
* `uint64` values are `Nat` with explicit `< 2 ^ 64` hypotheses where the
  width matters;
* a Go `panic` is modelled as `Option.none`.
-/

/-- Order of the scalar field `fr` of BLS12-381 (the modulus used by the
`gnark-crypto` `fr` package imported by `utils.go`). -/
def frOrder : Nat :=
  52435875175126190479447740508185965837690552500527637822603658699938581184513

/-- The scalar field: `fr.Element` values are field elements modulo `frOrder`. -/
abbrev F : Type := ZMod frOrder

instance : NeZero frOrder := ⟨by decide⟩

/-- Embeds `IsPowerOfTwo` from `utils/utils.go`:
`return value > 0 && (value&(value-1) == 0)`.
For `value < 2 ^ 64` the `Nat` operations agree with the Go `uint64`
operations: the short-circuit `&&` evaluates `value-1` only when
`value > 0`, so the subtraction never wraps. -/
def IsPowerOfTwo (value : Nat) : Bool :=
  decide (0 < value) && (value &&& (value - 1) == 0)

/-- The iteration of `ComputePowers` from `utils/utils.go`: starting from
the accumulator `acc` (the previously written entry), each later entry is
`previous * x` (`powers[i].Mul(&powers[i-1], &x)`). `powersFrom x a n` is
the list of `n` entries written when the entry at the first index is `a`. -/
def powersFrom (x : F) : F → Nat → List F
  | _, 0 => []
  | acc, Nat.succ n => acc :: powersFrom x (acc * x) n

/-- Embeds `ComputePowers` from `utils/utils.go`:
`powers := make([]fr.Element, n); powers[0].SetOne(); for i := 1; i < n; i++
{ powers[i].Mul(&powers[i-1], &x) }; return powers`.
For `n = 0` the write `powers[0].SetOne()` is out of range for the empty
slice and Go panics at runtime; the panic is modelled as `none`. -/
def ComputePowers (x : F) (n : Nat) : Option (List F) :=
  if n = 0 then none
  else some (powersFrom x 1 n)

/-- Embeds `Pow2` from `utils/utils.go`:
`if !IsPowerOfTwo(exp) { panic(...) }; pow := int(math.Log2(float64(exp)));
if pow == 0 { one := fr.One(); return &one }; result := x;
for i := 0; i < pow; i++ { result.Square(&result) }; return &result`.
The guard ensures `exp = 2 ^ k` with `k ≤ 63`; every such value converts to
`float64` exactly, and Go's `math.Log2` special-cases exact powers of two
(`Frexp` fraction `= 0.5`) to return the exponent as an exact integer, so
`int(math.Log2(float64(exp)))` is exactly `Nat.log2 exp` on the guarded
domain.  The panic on the guard is modelled as `none`. -/
def Pow2 (x : F) (exp : Nat) : Option F :=
  if !IsPowerOfTwo exp then none
  else
    let pow := Nat.log2 exp
    if pow = 0 then some 1
    else some ((fun acc => acc * acc)^[pow] x)

/-- Integer value of a big-endian byte buffer (most significant byte
first), as read by an arbitrary-precision big-endian decoder. -/
def bytesToNat (bs : List Nat) : Nat :=
  bs.foldl (fun acc b => acc * 256 + b) 0

/-- Modelled from the spec: `ReduceCanonical` is not part of the provided
source (only its test is).  Per §4.5 of the spec it decodes a fixed-width
big-endian byte buffer by interpreting it as an arbitrary-precision
unsigned integer, returns that value reduced modulo the field modulus in
all cases, and additionally returns a flag that is `true` iff the integer
was strictly less than the modulus (already canonical). -/
def ReduceCanonical (bs : List Nat) : F × Bool :=
  let v := bytesToNat bs
  ((v : F), decide (v < frOrder))

/-- A curve point in Jacobian coordinates over the base field `K`
(`gnark-crypto`'s `curve.G1Jac`); the point at infinity has `Z = 0`. -/
structure G1Jac (K : Type) where
  X : K
  Y : K
  Z : K

/-- A curve point in affine coordinates over the base field `K`
(`gnark-crypto`'s `curve.G1Affine`); the point at infinity is the
sentinel `(0, 0)`, matching the external curve library's convention. -/
structure G1Affine (K : Type) where
  X : K
  Y : K

/-- Single-point Jacobian-to-affine conversion of the external curve
library (the collaborator contract of §6 of the spec): the point at
infinity (`Z = 0`) maps to the affine sentinel `(0, 0)`; otherwise with
`a = Z⁻¹` and `b = a²` the result is `(X * b, Y * (b * a))`. -/
def fromJacobian {K : Type} [Field K] [DecidableEq K] (p : G1Jac K) : G1Affine K :=
  if p.Z = 0 then { X := 0, Y := 0 }
  else
    let a := p.Z⁻¹
    let b := a * a
    { X := p.X * b, Y := p.Y * (b * a) }

/-- Product of the `Z`-coordinates of the non-infinity points of a batch;
infinity points (`Z = 0`) are excluded from the product (spec §4.4: a zero
must not poison the batch-inversion chain). -/
def prodZ {K : Type} [Field K] [DecidableEq K] : List (G1Jac K) → K
  | [] => 1
  | p :: ps => (if p.Z = 0 then 1 else p.Z) * prodZ ps

/-- Back-substitution pass of Montgomery batch inversion: `inv` is the
inverse of the product of the non-zero `Z`-coordinates of the remaining
points.  An infinity point is mapped directly to the affine sentinel; a
finite point recovers `Z⁻¹ = inv * prodZ rest` and the accumulator is
advanced by multiplying the processed `Z` back in. -/
def batchAux {K : Type} [Field K] [DecidableEq K] : K → List (G1Jac K) → List (G1Affine K)
  | _, [] => []
  | inv, p :: ps =>
    if p.Z = 0 then { X := 0, Y := 0 } :: batchAux inv ps
    else
      let a := inv * prodZ ps
      let b := a * a
      { X := p.X * b, Y := p.Y * (b * a) } :: batchAux (inv * p.Z) ps

/-- Modelled from the spec: `BatchFromJacobian` is not part of the provided
source (only its test is).  Per §4.4 of the spec it converts every Jacobian
point of the batch to affine form using Montgomery's batch-inversion trick:
one field inversion of the product of all non-zero `Z`-coordinates, then
per-point back-substitution, with infinity points excluded from the
product and mapped directly to the affine infinity sentinel. -/
def BatchFromJacobian {K : Type} [Field K] [DecidableEq K]
    (ps : List (G1Jac K)) : List (G1Affine K) :=
  batchAux (prodZ ps)⁻¹ ps

/-- Reversal of the low `bits` bits of an index: the least significant bit
of `i` becomes the most significant of the result. -/
def bitRev : Nat → Nat → Nat
  | 0, _ => 0
  | Nat.succ b, i => i % 2 * 2 ^ b + bitRev b (i / 2)

/-- Modelled from the spec: `BitReverseRoots` is not part of the provided
source (only its test is).  Per §4.3 of the spec it reorders a sequence
whose length `n` is a power of two so that the element at index `i` moves
to index `bitrev(i, log2 n)`; since the bit-reversal of the index space is
an involution, the in-place pairwise swaps amount to reading position
`bitrev(j)` into position `j`. -/
def BitReverseRoots (xs : List F) : List F :=
  (List.range xs.length).map fun j => xs.getD (bitRev (Nat.log2 xs.length) j) 0

/-! ### Helper lemmas -/

theorem sq_iterate_eq_pow (x : F) (k : Nat) :
    (fun acc => acc * acc)^[k] x = x ^ 2 ^ k := by
  induction k with
  | zero => simp
  | succ k ih =>
    rw [Function.iterate_succ_apply', ih, ← pow_add]
    congr 1
    omega

theorem log2_two_pow (k : Nat) : Nat.log2 (2 ^ k) = k := by
  rw [Nat.log2_eq_log_two]
  exact Nat.log_pow (by norm_num) k

theorem two_pow_land_sub_one (k : Nat) : 2 ^ k &&& (2 ^ k - 1) = 0 := by
  apply Nat.zero_of_testBit_eq_false
  intro i
  rw [Nat.testBit_land]
  rcases eq_or_ne i k with rfl | hne
  · have h1 : 2 ^ i - 1 < 2 ^ i := by
      have := Nat.pos_pow_of_pos i (by norm_num : 0 < 2)
      omega
    simp [Nat.testBit_eq_false_of_lt h1]
  · simp [Nat.testBit_two_pow_of_ne (Ne.symm hne)]

theorem isPowerOfTwo_two_pow (k : Nat) : IsPowerOfTwo (2 ^ k) = true := by
  unfold IsPowerOfTwo
  rw [two_pow_land_sub_one]
  simp [Nat.pos_pow_of_pos]

theorem pow2_on_two_pow (x : F) (k : Nat) (hk : 1 ≤ k) :
    Pow2 x (2 ^ k) = some ((fun acc => acc * acc)^[k] x) := by
  unfold Pow2
  rw [isPowerOfTwo_two_pow, log2_two_pow]
  simp only [Bool.not_true, Bool.false_eq_true, if_false]
  have : ¬ k = 0 := by omega
  simp [this]

/-! ### Claims -/

/-- Claim C1, counterexample: the claim includes `k = 0`, i.e.
`Pow2(x, 1) = x^1`; but at `x = 2` the code returns the constant `1`,
not `2`. -/
theorem pow2_counterexample_at_exp_one :
    ¬ Pow2 (2 : F) (2 ^ 0) = some ((2 : F) ^ 2 ^ 0) := by
  have h0 : Nat.log2 1 = 0 := by simp [Nat.log2]
  have h1 : IsPowerOfTwo 1 = true := by decide
  simp only [pow_zero, pow_one, Pow2, h0, h1]
  decide

/-- Claim C1 (amended to `k ≥ 1`): for every field element `x` and every
exponent `2^k` with `1 ≤ k ≤ 63` (so representable as `uint64`),
`Pow2(x, 2^k)` returns `x^(2^k)`. -/
theorem pow2_correct_on_two_pow_ge_two (x : F) (k : Nat)
    (h1 : 1 ≤ k) (h63 : k ≤ 63) :
    Pow2 x (2 ^ k) = some (x ^ 2 ^ k) := by
  rw [pow2_on_two_pow x k h1, sq_iterate_eq_pow]

theorem pow2_correct_on_two_pow_ge_two_witness :
    1 ≤ 4 ∧ 4 ≤ 63 ∧ Pow2 (123 : F) (2 ^ 4) = some ((123 : F) ^ 2 ^ 4) :=
  ⟨by decide, by decide, pow2_correct_on_two_pow_ge_two 123 4 (by decide) (by decide)⟩

/-- Claim C2: for every field element `x`, `Pow2(x, 1)` returns the
multiplicative identity of the field, regardless of `x`. -/
theorem pow2_exp_one_returns_one (x : F) : Pow2 x 1 = some 1 := by
  have h0 : Nat.log2 1 = 0 := by simp [Nat.log2]
  have h1 : IsPowerOfTwo 1 = true := by decide
  simp [Pow2, h0, h1]

theorem pow2_exp_one_returns_one_witness : Pow2 (5 : F) 1 = some 1 :=
  pow2_exp_one_returns_one 5

/-- Claim C5: `Pow2(x, exp)` panics exactly when `exp` is not a power of
two (the guard is the first statement of the function and the only panic);
for power-of-two `exp` it returns a value. -/
theorem pow2_panics_iff_not_power_of_two (x : F) (exp : Nat)
    (hexp : exp < 2 ^ 64) :
    Pow2 x exp = none ↔ IsPowerOfTwo exp = false := by
  rcases h : IsPowerOfTwo exp with _ | _
  · simp [Pow2, h]
  · simp only [Pow2, h, Bool.not_true, Bool.false_eq_true, if_false]
    constructor
    · intro hcontra
      split at hcontra <;> simp_all
    · intro hcontra
      simp at hcontra

theorem pow2_panics_iff_not_power_of_two_witness :
    (3 : Nat) < 2 ^ 64 ∧ (Pow2 (7 : F) 3 = none ↔ IsPowerOfTwo 3 = false) :=
  ⟨by decide, pow2_panics_iff_not_power_of_two 7 3 (by decide)⟩

/-- Claim C10: for `exp = 2^k` with `1 ≤ k ≤ 63`, the squaring count
computed from the (exact) `float64` logarithm is exactly `k`, the loop
performs exactly `k` squarings, and the result is exactly `x ^ (2^k)`. -/
theorem pow2_log2_exact (x : F) (k : Nat) (h1 : 1 ≤ k) (h63 : k ≤ 63) :
    Nat.log2 (2 ^ k) = k ∧
    Pow2 x (2 ^ k) = some ((fun acc => acc * acc)^[k] x) ∧
    (fun acc => acc * acc)^[k] x = x ^ 2 ^ k :=
  ⟨log2_two_pow k, pow2_on_two_pow x k h1, sq_iterate_eq_pow x k⟩

theorem pow2_log2_exact_witness :
    1 ≤ 2 ∧ 2 ≤ 63 ∧
    (Nat.log2 (2 ^ 2) = 2 ∧
      Pow2 (9 : F) (2 ^ 2) = some ((fun acc => acc * acc)^[2] (9 : F)) ∧
      (fun acc => acc * acc)^[2] (9 : F) = (9 : F) ^ 2 ^ 2) :=
  ⟨by decide, by decide, pow2_log2_exact 9 2 (by decide) (by decide)⟩

theorem powersFrom_length (x a : F) (n : Nat) : (powersFrom x a n).length = n := by
  induction n generalizing a with
  | zero => rfl
  | succ n ih => simp [powersFrom, ih]

theorem powersFrom_getD (x : F) (n : Nat) :
    ∀ (a : F) (i : Nat), i < n → (powersFrom x a n).getD i 0 = a * x ^ i := by
  induction n with
  | zero => intro a i h; omega
  | succ n ih =>
    intro a i h
    cases i with
    | zero => simp [powersFrom]
    | succ i =>
      have hi : i < n := by omega
      simp only [powersFrom, List.getD_cons_succ]
      rw [ih (a * x) i hi]
      ring

/-- Claim C3 (code bug): `ComputePowers(x, 0)` is supposed to return an
empty sequence without error (this is what `TestComputePowersZero`
asserts), but the code writes `powers[0].SetOne()` into a zero-length
slice, which panics with an index-out-of-range runtime error. -/
theorem computePowers_zero_panics (x : F) : ComputePowers x 0 = none := by
  simp [ComputePowers]

theorem computePowers_zero_panics_witness : ComputePowers (1234 : F) 0 = none :=
  computePowers_zero_panics 1234

/-- Claim C4 (code bug at `n = 0`): for `n ≥ 1` the returned sequence has
length exactly `n` and entry `i` equal to `x ^ i`, but at `n = 0` the code
panics instead of returning the empty sequence the claim (and the test
suite) demands. -/
theorem computePowers_spec :
    ComputePowers (123 : F) 0 = none ∧
    ∀ (x : F) (n : Nat), 1 ≤ n →
      ∃ l, ComputePowers x n = some l ∧ l.length = n ∧
        ∀ i, i < n → l.getD i 0 = x ^ i := by
  refine ⟨by simp [ComputePowers], ?_⟩
  intro x n hn
  refine ⟨powersFrom x 1 n, ?_, powersFrom_length x 1 n, ?_⟩
  · have : ¬ n = 0 := by omega
    simp [ComputePowers, this]
  · intro i hi
    rw [powersFrom_getD x n 1 i hi, one_mul]

theorem computePowers_spec_witness :
    ∃ l, ComputePowers (123 : F) 16 = some l ∧ l.length = 16 ∧
      ∀ i, i < 16 → l.getD i 0 = (123 : F) ^ i :=
  computePowers_spec.2 123 16 (by decide)

/-- Claim C7: `ReduceCanonical` is total (it always returns a pair), the
returned field element is the big-endian integer value of the buffer
reduced modulo the field modulus, and the returned flag is `true` iff that
integer value was strictly below the modulus. -/
theorem reduceCanonical_total_correct (bs : List Nat) (hlen : bs.length = 32) :
    (ReduceCanonical bs).1 = ((bytesToNat bs : Nat) : F) ∧
    ((ReduceCanonical bs).1).val = bytesToNat bs % frOrder ∧
    ((ReduceCanonical bs).2 = true ↔ bytesToNat bs < frOrder) := by
  refine ⟨rfl, ?_, ?_⟩
  · simp only [ReduceCanonical]
    exact ZMod.val_natCast (bytesToNat bs)
  · simp [ReduceCanonical]

theorem reduceCanonical_total_correct_witness :
    (List.replicate 32 7).length = 32 ∧
    ((ReduceCanonical (List.replicate 32 7)).1 =
        ((bytesToNat (List.replicate 32 7) : Nat) : F) ∧
      ((ReduceCanonical (List.replicate 32 7)).1).val =
        bytesToNat (List.replicate 32 7) % frOrder ∧
      ((ReduceCanonical (List.replicate 32 7)).2 = true ↔
        bytesToNat (List.replicate 32 7) < frOrder)) :=
  ⟨by decide, reduceCanonical_total_correct (List.replicate 32 7) (by decide)⟩

theorem land_odd_even (m : Nat) : (2 * m + 1) &&& (2 * m) = 2 * m := by
  have h := Nat.land_bit true m false m
  simpa [Nat.bit, Nat.and_self] using h

theorem land_even_odd (m : Nat) (hm : 0 < m) :
    (2 * m) &&& (2 * m - 1) = 2 * (m &&& (m - 1)) := by
  have h := Nat.land_bit false m true (m - 1)
  have h2 : 2 * m - 1 = 2 * (m - 1) + 1 := by omega
  rw [h2]
  simpa [Nat.bit] using h

theorem land_sub_one_eq_zero_iff :
    ∀ v : Nat, 0 < v → ((v &&& (v - 1)) = 0 ↔ ∃ k, v = 2 ^ k) := by
  intro v
  induction v using Nat.strong_induction_on with
  | _ v ih =>
    intro hv
    rcases Nat.even_or_odd v with ⟨m, hm⟩ | ⟨m, hm⟩
    · have hm2 : v = 2 * m := by omega
      have hmpos : 0 < m := by omega
      rw [hm2, land_even_odd m hmpos]
      have hzero : 2 * (m &&& (m - 1)) = 0 ↔ (m &&& (m - 1)) = 0 := by omega
      rw [hzero, ih m (by omega) hmpos]
      constructor
      · rintro ⟨k, rfl⟩
        exact ⟨k + 1, by ring⟩
      · rintro ⟨k, hk⟩
        cases k with
        | zero => rw [pow_zero] at hk; omega
        | succ k =>
          rw [pow_succ] at hk
          exact ⟨k, by omega⟩
    · have hm2 : v = 2 * m + 1 := hm
      have hsub : 2 * m + 1 - 1 = 2 * m := by omega
      rw [hm2, hsub, land_odd_even]
      constructor
      · intro h0
        exact ⟨0, by simp; omega⟩
      · rintro ⟨k, hk⟩
        cases k with
        | zero => rw [pow_zero] at hk; omega
        | succ k =>
          rw [pow_succ] at hk
          omega

theorem exists_pow_iff_unique_testBit (v : Nat) (hv : 0 < v) :
    (∃ k, v = 2 ^ k) ↔ ∃! i, Nat.testBit v i = true := by
  constructor
  · rintro ⟨k, rfl⟩
    refine ⟨k, Nat.testBit_two_pow_self, ?_⟩
    intro j hj
    by_contra hne
    rw [Nat.testBit_two_pow_of_ne (Ne.symm hne)] at hj
    simp at hj
  · rintro ⟨i, hi, huniq⟩
    refine ⟨i, ?_⟩
    apply Nat.eq_of_testBit_eq
    intro j
    rcases eq_or_ne j i with rfl | hne
    · rw [hi]; exact Nat.testBit_two_pow_self.symm
    · rw [Nat.testBit_two_pow_of_ne (Ne.symm hne)]
      cases hb : v.testBit j with
      | false => rfl
      | true => exact absurd (huniq j hb) hne

/-- Claim C6: for every `uint64` value `v`, `IsPowerOfTwo v` is `true`
iff `v > 0` and `v` has exactly one set bit; in particular
`IsPowerOfTwo 0 = false`. -/
theorem isPowerOfTwo_iff_one_set_bit (v : Nat) (hv : v < 2 ^ 64) :
    IsPowerOfTwo v = true ↔ (0 < v ∧ ∃! i, Nat.testBit v i = true) := by
  unfold IsPowerOfTwo
  simp only [Bool.and_eq_true, decide_eq_true_eq, beq_iff_eq]
  constructor
  · rintro ⟨hpos, hland⟩
    exact ⟨hpos,
      (exists_pow_iff_unique_testBit v hpos).mp
        ((land_sub_one_eq_zero_iff v hpos).mp hland)⟩
  · rintro ⟨hpos, huniq⟩
    exact ⟨hpos,
      (land_sub_one_eq_zero_iff v hpos).mpr
        ((exists_pow_iff_unique_testBit v hpos).mpr huniq)⟩

theorem isPowerOfTwo_iff_one_set_bit_witness :
    (1024 : Nat) < 2 ^ 64 ∧
    (IsPowerOfTwo 1024 = true ↔ (0 < 1024 ∧ ∃! i, Nat.testBit 1024 i = true)) :=
  ⟨by decide, isPowerOfTwo_iff_one_set_bit 1024 (by decide)⟩

theorem bitRev_lt (b : Nat) : ∀ i : Nat, bitRev b i < 2 ^ b := by
  induction b with
  | zero => intro i; simp [bitRev]
  | succ b ih =>
    intro i
    have h1 := ih (i / 2)
    rw [bitRev, pow_succ]
    rcases Nat.mod_two_eq_zero_or_one i with h | h <;> rw [h] <;> omega

theorem bitRev_testBit (b : Nat) :
    ∀ i j : Nat, j < b → Nat.testBit (bitRev b i) j = Nat.testBit i (b - 1 - j) := by
  induction b with
  | zero => intro i j hj; omega
  | succ b ih =>
    intro i j hj
    have hmul : i % 2 * 2 ^ b = 2 ^ b * (i % 2) := Nat.mul_comm _ _
    rw [bitRev, hmul, Nat.testBit_mul_pow_two_add (i % 2) (bitRev_lt b (i / 2)) j]
    rcases Nat.lt_or_ge j b with hlt | hge
    · rw [if_pos hlt, ih (i / 2) j hlt, Nat.testBit_div_two]
      congr 1
      omega
    · have hjb : j = b := by omega
      subst hjb
      rw [if_neg (by omega)]
      have hsub : j - j = 0 := by omega
      have hzero : (Nat.succ j) - 1 - j = 0 := by omega
      rw [hsub, hzero, Nat.testBit_zero, Nat.testBit_zero]
      have : i % 2 % 2 = i % 2 := by omega
      rw [this]

theorem bitRev_bitRev (b i : Nat) (hi : i < 2 ^ b) :
    bitRev b (bitRev b i) = i := by
  apply Nat.eq_of_testBit_eq
  intro j
  rcases Nat.lt_or_ge j b with hj | hj
  · rw [bitRev_testBit b (bitRev b i) j hj,
      bitRev_testBit b i (b - 1 - j) (by omega)]
    congr 1
    omega
  · have hpow : 2 ^ b ≤ 2 ^ j := Nat.pow_le_pow_right (by norm_num) hj
    rw [Nat.testBit_eq_false_of_lt (Nat.lt_of_lt_of_le (bitRev_lt b _) hpow),
      Nat.testBit_eq_false_of_lt (Nat.lt_of_lt_of_le hi hpow)]

theorem getD_map_range {α : Type} (f : Nat → α) (n j : Nat) (hj : j < n) (d : α) :
    ((List.range n).map f).getD j d = f j := by
  have h1 : j < ((List.range n).map f).length := by simpa using hj
  rw [List.getD_eq_getElem _ d h1]
  simp

theorem bitReverseRoots_getD (xs : List F) (j : Nat) (hj : j < xs.length) :
    (BitReverseRoots xs).getD j 0 = xs.getD (bitRev (Nat.log2 xs.length) j) 0 := by
  unfold BitReverseRoots
  exact getD_map_range _ _ j hj 0

theorem bitReverseRoots_length (xs : List F) :
    (BitReverseRoots xs).length = xs.length := by
  simp [BitReverseRoots]

/-- Claim C9: on a sequence of field elements whose length is a power of
two, applying `BitReverseRoots` twice restores the original sequence
(the bit-reversal permutation is self-inverse). -/
theorem bitReverseRoots_involutive (xs : List F) (h : ∃ k, xs.length = 2 ^ k) :
    BitReverseRoots (BitReverseRoots xs) = xs := by
  obtain ⟨k, hk⟩ := h
  have hlog : Nat.log2 xs.length = k := by rw [hk]; exact log2_two_pow k
  have hlen1 : (BitReverseRoots xs).length = xs.length := bitReverseRoots_length xs
  have hlog1 : Nat.log2 (BitReverseRoots xs).length = k := by rw [hlen1, hlog]
  apply List.ext_getElem (by rw [bitReverseRoots_length, hlen1])
  intro i h1 h2
  have hrlt : bitRev k i < xs.length := by rw [hk]; exact bitRev_lt k i
  have step1 : (BitReverseRoots (BitReverseRoots xs)).getD i 0 =
      (BitReverseRoots xs).getD (bitRev k i) 0 := by
    have hstep := bitReverseRoots_getD (BitReverseRoots xs) i (by rw [hlen1]; exact h2)
    rw [hlog1] at hstep
    exact hstep
  have step2 : (BitReverseRoots xs).getD (bitRev k i) 0 =
      xs.getD (bitRev k (bitRev k i)) 0 := by
    have hstep := bitReverseRoots_getD xs (bitRev k i) hrlt
    rw [hlog] at hstep
    exact hstep
  have step3 : bitRev k (bitRev k i) = i := bitRev_bitRev k i (by rw [← hk]; exact h2)
  have lhs : (BitReverseRoots (BitReverseRoots xs)).getD i 0 =
      (BitReverseRoots (BitReverseRoots xs))[i] := List.getD_eq_getElem _ 0 h1
  have rhs : xs.getD i 0 = xs[i] := List.getD_eq_getElem _ 0 h2
  rw [← lhs, ← rhs, step1, step2, step3]

theorem bitReverseRoots_involutive_witness :
    (∃ k, ([0, 1, 2, 3, 4, 5, 6, 7] : List F).length = 2 ^ k) ∧
    BitReverseRoots (BitReverseRoots ([0, 1, 2, 3, 4, 5, 6, 7] : List F)) =
      ([0, 1, 2, 3, 4, 5, 6, 7] : List F) :=
  ⟨⟨3, by decide⟩, bitReverseRoots_involutive _ ⟨3, by decide⟩⟩

theorem prodZ_ne_zero {K : Type} [Field K] [DecidableEq K] :
    ∀ ps : List (G1Jac K), prodZ ps ≠ 0 := by
  intro ps
  induction ps with
  | nil => exact one_ne_zero
  | cons p ps ih =>
    apply mul_ne_zero _ ih
    by_cases hz : p.Z = 0
    · simp [hz]
    · simp [hz]

theorem batchAux_correct {K : Type} [Field K] [DecidableEq K] :
    ∀ ps : List (G1Jac K), batchAux (prodZ ps)⁻¹ ps = List.map fromJacobian ps := by
  intro ps
  induction ps with
  | nil => rfl
  | cons p ps ih =>
    have hQ : prodZ ps ≠ 0 := prodZ_ne_zero ps
    by_cases hz : p.Z = 0
    · have hp : prodZ (p :: ps) = prodZ ps := by simp [prodZ, hz]
      have hhead : fromJacobian p = ({ X := 0, Y := 0 } : G1Affine K) := by
        simp [fromJacobian, hz]
      simp only [batchAux, hz, if_pos, List.map_cons, hhead, hp, ih]
    · have hp : prodZ (p :: ps) = p.Z * prodZ ps := by simp [prodZ, hz]
      have ha : (prodZ (p :: ps))⁻¹ * prodZ ps = p.Z⁻¹ := by
        rw [hp, mul_inv, mul_assoc, inv_mul_cancel₀ hQ, mul_one]
      have hacc : (prodZ (p :: ps))⁻¹ * p.Z = (prodZ ps)⁻¹ := by
        rw [hp, mul_inv, mul_comm p.Z⁻¹ (prodZ ps)⁻¹, mul_assoc,
          inv_mul_cancel₀ hz, mul_one]
      have hhead : fromJacobian p =
          ({ X := p.X * (p.Z⁻¹ * p.Z⁻¹), Y := p.Y * (p.Z⁻¹ * p.Z⁻¹ * p.Z⁻¹) } :
            G1Affine K) := by
        simp [fromJacobian, hz]
      simp only [batchAux, hz, if_neg, List.map_cons, ha, hacc, ih, hhead,
        Bool.false_eq_true, ite_false]

/-- Claim C8: `BatchFromJacobian` returns an output of the same length as
the input batch, whose entry at every index is the single-point
Jacobian-to-affine conversion of the input point at that index, for every
batch, including batches with points at infinity at arbitrary positions. -/
theorem batchFromJacobian_matches_pointwise {K : Type} [Field K] [DecidableEq K]
    (ps : List (G1Jac K)) :
    (BatchFromJacobian ps).length = ps.length ∧
    BatchFromJacobian ps = List.map fromJacobian ps := by
  have h : BatchFromJacobian ps = List.map fromJacobian ps := batchAux_correct ps
  exact ⟨by rw [h, List.length_map], h⟩

theorem batchFromJacobian_matches_pointwise_witness :
    (BatchFromJacobian ([⟨1, 2, 1⟩, ⟨0, 0, 0⟩, ⟨4, 8, 2⟩] : List (G1Jac ℚ))).length =
      ([⟨1, 2, 1⟩, ⟨0, 0, 0⟩, ⟨4, 8, 2⟩] : List (G1Jac ℚ)).length ∧
    BatchFromJacobian ([⟨1, 2, 1⟩, ⟨0, 0, 0⟩, ⟨4, 8, 2⟩] : List (G1Jac ℚ)) =
      List.map fromJacobian ([⟨1, 2, 1⟩, ⟨0, 0, 0⟩, ⟨4, 8, 2⟩] : List (G1Jac ℚ)) :=
  batchFromJacobian_matches_pointwise _
